import Mathlib

/-!
Verification of the off-policy RL core of the korali framework against its
specification. The excerpted source provides the agent module header
(`source/modules/solver/agent/agent.hpp`): the data-model declarations
(termination statuses, policy records, the replay-memory columns) and the
inline implementation of `Agent::getScaledReward`. The bodies of the other
agent functions (`updateExperienceMetadata`, the REFER controller update,
the training loop) are declared in the header but their translation units
are not part of the excerpt; those operations are modelled from the
specification text, as marked in the individual doc comments.

All real-valued quantities are embedded as exact rationals. Floating-point
rounding and overflow of finite intermediate results are not modelled; the
IEEE-754 zero-divisor behaviour, which decides the reward-rescaling claims,
is modelled exactly.
-/

namespace Korali

/-- Idealized IEEE-754 value classes: a finite value (carried exactly as a
rational), the two infinities, and NaN. -/
inductive FVal where
  | finite (q : ℚ)
  | posInf
  | negInf
  | nan
deriving DecidableEq

/-- The `std::isfinite` predicate on the idealized float values. -/
def FVal.isFinite : FVal → Bool
  | .finite _ => true
  | _ => false

/-- IEEE-754 division of two finite values, idealized over exact rationals:
rounding and overflow of finite quotients are not modelled; the zero-divisor
cases follow IEEE-754 with an unsigned zero: `x / 0 = +inf` for `x > 0`,
`x / 0 = -inf` for `x < 0`, and `0 / 0 = NaN`. -/
def floatDiv (x y : ℚ) : FVal :=
  if y ≠ 0 then .finite (x / y)
  else if 0 < x then .posInf
  else if x < 0 then .negInf
  else .nan

/-- Error taxonomy of the engine, restricted to the class exercised here:
`KORALI_LOG_ERROR` on a non-finite value is the fatal `NumericFailure`. -/
inductive KoraliError where
  | numericFailure
deriving DecidableEq

/-- Shallow embedding of `Agent::getScaledReward` (agent.hpp, lines 711-719):
`rescaledReward = reward / _rewardRescalingSigma[environmentId]`; if the
result is not finite the engine fails fatally via `KORALI_LOG_ERROR`
(modelled as `Except.error`, per the spec's policy that `NumericFailure` is
fatal), otherwise the rescaled reward is returned. The per-environment sigma
table `_rewardRescalingSigma` is passed as a function from environment ids. -/
def getScaledReward (rewardRescalingSigma : ℕ → ℚ) (environmentId : ℕ) (reward : ℚ) :
    Except KoraliError ℚ :=
  match floatDiv reward (rewardRescalingSigma environmentId) with
  | .finite q => Except.ok q
  | _ => Except.error KoraliError.numericFailure

/-- Modelled from the spec: the reward-rescaling sigma update (spec §4.6) is
not part of the excerpted source (only the column `_rewardRescalingSigma` is
declared in agent.hpp). The spec computes the per-environment sigma as
`sqrt(sum_squared_rewards / size_env)` and prescribes "If `sigma = 0` use 1
(no rescaling)". This definition applies that substitution to the computed
(raw) sigma value before it is stored. -/
def rewardRescalingSigmaOf (rawSigma : ℚ) : ℚ :=
  if rawSigma = 0 then 1 else rawSigma

/-- The three scalars maintained by the REFER off-policiness controller:
`_experienceReplayOffPolicyCurrentCutoff`, `_currentLearningRate`, and the
REFER penalisation coefficient beta (agent.hpp declares the members at
lines 270-285). -/
structure ReferState where
  cutoff : ℚ
  learningRate : ℚ
  beta : ℚ
deriving DecidableEq

/-- Modelled from the spec: the REFER controller update performed after each
policy update (spec §4.5); only the member declarations, not the update
code, are in the excerpted agent.hpp. With `r` the off-policy ratio, `D` the
target, and `A` the annealing rate: if `r > D`, cutoff and learning rate are
multiplied by `1 - A` and beta moves toward 1 by `(1 - beta) * A`; otherwise
cutoff and learning rate are divided by `1 - A` and beta moves toward 0 by
`beta * A`. The spec's clamps are applied: cutoff to `[1, +inf)`, beta to
`[0, 1]`, and the learning rate above the configured minimum `lrMin`. -/
def updateREFER (A D lrMin r : ℚ) (s : ReferState) : ReferState :=
  if r > D then
    { cutoff := max 1 (s.cutoff * (1 - A))
      learningRate := max lrMin (s.learningRate * (1 - A))
      beta := min 1 (max 0 (s.beta + (1 - s.beta) * A)) }
  else
    { cutoff := max 1 (s.cutoff / (1 - A))
      learningRate := max lrMin (s.learningRate / (1 - A))
      beta := min 1 (max 0 (s.beta - s.beta * A)) }

/-- The `termination_t` enumerator of agent.hpp (lines 32-49). -/
inductive Termination where
  | nonTerminal
  | terminal
  | truncated
deriving DecidableEq

/-- The `policy_t` structure of agent.hpp (lines 54-82), restricted to the
continuous-action fields the claims exercise. -/
structure PolicyRecord where
  stateValue : ℚ
  distributionParameters : List ℚ
deriving DecidableEq

/-- One logical row of the replay memory: the per-experience view of the
column buffers declared in agent.hpp (`_stateVector`, `_actionVector`,
`_rewardVector`, `_episodeIdVector`, `_environmentIdVector`,
`_terminationVector`, `_truncatedStateValueVector`, `_expPolicyVector`,
`_curPolicyVector`, `_stateValueVector`, `_importanceWeightVector`,
`_truncatedImportanceWeightVector`, `_isOnPolicyVector`,
`_retraceValueVector`, lines 396-486). -/
structure Experience where
  state : List ℚ
  action : List ℚ
  reward : ℚ
  episodeId : ℕ
  environmentId : ℕ
  termination : Termination
  truncatedStateValue : ℚ
  expPolicy : PolicyRecord
  curPolicy : PolicyRecord
  stateValue : ℚ
  importanceWeight : ℚ
  truncatedImportanceWeight : ℚ
  isOnPolicy : Bool
  retraceValue : ℚ
deriving DecidableEq

/-- A fixed default experience, used only as the out-of-range default of
positional lookups. -/
def exp0 : Experience :=
  { state := [], action := [], reward := 0, episodeId := 0, environmentId := 0
    termination := Termination.nonTerminal, truncatedStateValue := 0
    expPolicy := { stateValue := 0, distributionParameters := [] }
    curPolicy := { stateValue := 0, distributionParameters := [] }
    stateValue := 0, importanceWeight := 1, truncatedImportanceWeight := 1
    isOnPolicy := true, retraceValue := 0 }

/-- Modelled from the spec: one step of the retrace recursion (spec §4.4.6),
`V_ret_i = V_i + trunc_rho_i * (delta_i + gamma * (V_ret_next - V_next))`
with `delta_i = r_i + gamma * V_next - V_i`; the body of
`updateExperienceMetadata`, which computes `_retraceValueVector`, is only
declared in the excerpted agent.hpp. -/
def retraceStep (gamma : ℚ) (e : Experience) (vNext vretNext : ℚ) : ℚ :=
  e.stateValue + e.truncatedImportanceWeight *
    ((e.reward + gamma * vNext - e.stateValue) + gamma * (vretNext - vNext))

/-- Modelled from the spec: the bootstrap value used past the last experience
of an episode (spec §4.4.6): 0 for a `Terminal` experience and the stored
truncated state value for a `Truncated` one. A last experience left
`NonTerminal` (which a well-formed episode does not have, spec §3) bootstraps
from its own state value, matching the spec's boundary-clamping rule. -/
def terminalBootstrap (e : Experience) : ℚ :=
  match e.termination with
  | Termination.terminal => 0
  | Termination.truncated => e.truncatedStateValue
  | Termination.nonTerminal => e.stateValue

/-- Modelled from the spec: the backward retrace sweep over one episode
(listed oldest first), producing the retrace value of every experience
(spec §4.4.6). At the last experience both `V_next` and `V_ret_next` are the
terminal bootstrap value; every earlier experience uses the state value of
the next in-episode experience as `V_next` and the already-computed retrace
value of that experience as `V_ret_next`. -/
def retraceValues (gamma : ℚ) : List Experience → List ℚ
  | [] => []
  | [e] => [retraceStep gamma e (terminalBootstrap e) (terminalBootstrap e)]
  | e :: enext :: rest =>
    let tail := retraceValues gamma (enext :: rest)
    retraceStep gamma e enext.stateValue (tail.headD 0) :: tail

/-- Concrete non-last experience used by witnesses. -/
def wExpA : Experience :=
  { exp0 with stateValue := 5, reward := 2, truncatedImportanceWeight := 1 }

/-- Concrete truncated terminal experience used by witnesses. -/
def wExpB : Experience :=
  { exp0 with termination := Termination.truncated, truncatedStateValue := 3
              stateValue := 2, reward := 1, truncatedImportanceWeight := 1 }

/-- Modelled from the spec: the on-policy classification (spec §4.4.5),
`is_on_policy[i] = (1/cutoff <= rho <= cutoff)`; `_isOnPolicyVector` is only
declared in the excerpted agent.hpp. -/
def computeIsOnPolicy (cutoff rho : ℚ) : Bool :=
  decide (1 / cutoff ≤ rho ∧ rho ≤ cutoff)

/-- The refresh-time configuration scalars: `_importanceWeightTruncationLevel`
(`C`), `_experienceReplayOffPolicyCurrentCutoff`, and `_discountFactor`
(agent.hpp lines 153-157 and 270-273). -/
structure RefreshConfig where
  truncationLevel : ℚ
  cutoff : ℚ
  discountFactor : ℚ
deriving DecidableEq

/-- Modelled from the spec: the per-experience metadata refresh performed by
`updateExperienceMetadata` (spec §4.4.3-5; the function body is only declared
in the excerpted agent.hpp). `iwFn` abstracts the pure virtual
`calculateImportanceWeight` of the concrete (continuous or discrete) agent;
`p` is the policy record produced by the policy evaluator on the experience's
state sequence and `ptrunc` the record produced on the post-terminal
truncated sequence. The refresh writes `cur_policy`, `state_value`, the
truncated state value (for truncated terminals), `importance_weight`,
`trunc_importance_weight = min(rho, C)`, and the on-policy flag. -/
def refreshRow (iwFn : List ℚ → PolicyRecord → PolicyRecord → ℚ)
    (cfg : RefreshConfig) (p ptrunc : PolicyRecord) (e : Experience) : Experience :=
  let rho := iwFn e.action p e.expPolicy
  { e with
    curPolicy := p
    stateValue := p.stateValue
    truncatedStateValue :=
      if e.termination = Termination.truncated then ptrunc.stateValue
      else e.truncatedStateValue
    importanceWeight := rho
    truncatedImportanceWeight := min rho cfg.truncationLevel
    isOnPolicy := computeIsOnPolicy cfg.cutoff rho }

/-- The flat replay memory: the shared logical row space of the column
buffers (oldest row first), the capacity `_experienceReplayMaximumSize`, and
the running `_experienceReplayOffPolicyCount`. -/
structure ReplayMemory where
  rows : List Experience
  maxSize : ℕ
  offPolicyCount : ℕ
deriving DecidableEq

/-- The number of stored off-policy rows. -/
def offPolicyRows (rows : List Experience) : ℕ :=
  rows.countP fun e => !e.isOnPolicy

/-- The replay-memory counting invariant: `off_policy_count` equals the
number of stored experiences that are not on-policy. -/
def countInvariant (s : ReplayMemory) : Prop :=
  s.offPolicyCount = offPolicyRows s.rows

/-- Modelled from the spec: FIFO eviction of the oldest row when the ring
wraps (spec §3 Lifecycle, §4.2): the off-policy count is decremented if the
evicted row was off-policy. -/
def evictOldest (s : ReplayMemory) : ReplayMemory :=
  match s.rows with
  | [] => s
  | e :: rest =>
    { s with rows := rest
             offPolicyCount :=
               if e.isOnPolicy then s.offPolicyCount else s.offPolicyCount - 1 }

/-- Modelled from the spec: appending an experience (spec §4.2): when the
memory is full the oldest row is evicted first, then the new row is added to
every column at the same logical index and the off-policy count is adjusted
for the incoming row. -/
def appendExperience (e : Experience) (s : ReplayMemory) : ReplayMemory :=
  let s1 := if s.maxSize ≤ s.rows.length then evictOldest s else s
  { s1 with rows := s1.rows ++ [e]
            offPolicyCount :=
              if e.isOnPolicy then s1.offPolicyCount else s1.offPolicyCount + 1 }

/-- Modelled from the spec: refreshing the metadata of the single row `i`
(spec §4.4.3-5), maintaining the off-policy count incrementally from the
row's on-policy flag before and after the refresh. A stale index leaves the
memory unchanged. -/
def refreshAt (iwFn : List ℚ → PolicyRecord → PolicyRecord → ℚ)
    (cfg : RefreshConfig) (p ptrunc : PolicyRecord) (i : ℕ)
    (s : ReplayMemory) : ReplayMemory :=
  match s.rows[i]? with
  | none => s
  | some e =>
    let e' := refreshRow iwFn cfg p ptrunc e
    { s with rows := s.rows.set i e'
             offPolicyCount :=
               if e.isOnPolicy = e'.isOnPolicy then s.offPolicyCount
               else if e'.isOnPolicy then s.offPolicyCount - 1
               else s.offPolicyCount + 1 }

/-- Modelled from the spec: the whole-minibatch metadata refresh, row by row;
`pol` and `ptrunc` give the policy-evaluator output for each logical index
(the evaluator is a pure function of the current network, spec §4.3). -/
def refreshMinibatch (iwFn : List ℚ → PolicyRecord → PolicyRecord → ℚ)
    (cfg : RefreshConfig) (pol ptrunc : ℕ → PolicyRecord) (mb : List ℕ)
    (s : ReplayMemory) : ReplayMemory :=
  mb.foldl (fun acc i => refreshAt iwFn cfg (pol i) (ptrunc i) i acc) s

/-- Concrete importance-weight function used by witnesses. -/
def wIw : List ℚ → PolicyRecord → PolicyRecord → ℚ := fun _ _ _ => 2

/-- Concrete policy record used by witnesses. -/
def wPol : PolicyRecord := { stateValue := 7, distributionParameters := [] }

/-- Concrete refresh configuration used by witnesses. -/
def wCfg : RefreshConfig := { truncationLevel := 4, cutoff := 4, discountFactor := 1 }

/-- Concrete off-policy experience used by witnesses. -/
def wOff : Experience := { exp0 with isOnPolicy := false }

/-- Concrete replay memory holding one off-policy row, used by witnesses. -/
def wRM : ReplayMemory := { rows := [wOff], maxSize := 1, offPolicyCount := 1 }

/-- Concrete replay memory holding one on-policy row, used by witnesses. -/
def wRM1 : ReplayMemory := { rows := [exp0], maxSize := 2, offPolicyCount := 0 }

/-- The learner-loop counters relevant to the training-start gate: the
replay-memory size and `_policyUpdateCount` (agent.hpp lines 279-281). -/
structure LearnerState where
  replaySize : ℕ
  policyUpdateCount : ℕ
deriving DecidableEq

/-- Modelled from the spec: one training generation of the learner loop
(spec §4.8; `trainingGeneration` is only declared in the excerpted
agent.hpp). The generation first ingests the `newExperiences` completed
experiences into the bounded replay memory; if the resulting size is below
`_experienceReplayStartSize` it returns without producing a policy update,
otherwise it performs the generation's `updates` policy updates. -/
def runTrainingGeneration (startSize maxSize newExperiences updates : ℕ)
    (s : LearnerState) : LearnerState :=
  let size := min (s.replaySize + newExperiences) maxSize
  if size < startSize then
    { replaySize := size, policyUpdateCount := s.policyUpdateCount }
  else
    { replaySize := size, policyUpdateCount := s.policyUpdateCount + updates }

/-- Index-aware map starting at position `n`; the substrate of the
positional column writes of the metadata refresh. -/
def mapIdxFrom {α : Type} (f : ℕ → α → α) : ℕ → List α → List α
  | _, [] => []
  | n, a :: as => f n a :: mapIdxFrom f (n + 1) as

/-- Index-aware map over a whole column, starting at position 0. -/
def mapIdx0 {α : Type} (f : ℕ → α → α) (l : List α) : List α :=
  mapIdxFrom f 0 l

/-- The fields of an experience read by the retrace recursion. -/
def retraceData (e : Experience) : ℚ × ℚ × ℚ × Termination × ℚ :=
  (e.reward, e.stateValue, e.truncatedImportanceWeight, e.termination,
    e.truncatedStateValue)

/-- Modelled from the spec: writing back the recomputed retrace values of one
episode (spec §4.4.6 and the design note of §9: the episode's retrace values
are computed from a snapshot of the episode and then written back, avoiding
aliasing between the backward sweep and the buffer being written). -/
def setRetrace (gamma : ℚ) (ep : List Experience) : List Experience :=
  mapIdx0 (fun j e => { e with retraceValue := (retraceValues gamma ep).getD j 0 }) ep

/-- Modelled from the spec: refreshing episode `i` of the replay for the
minibatch `mb` of (episode, position) indices (spec §4.4): every owned
minibatch row is refreshed via `refreshRow` with the policy-evaluator
records for that row, and an episode owning at least one refreshed
experience has its retrace column recomputed backward. -/
def refreshEpisode (iwFn : List ℚ → PolicyRecord → PolicyRecord → ℚ)
    (cfg : RefreshConfig) (pol ptrunc : ℕ → ℕ → PolicyRecord)
    (mb : List (ℕ × ℕ)) (i : ℕ) (ep : List Experience) : List Experience :=
  let ep1 := mapIdx0
    (fun j e => if (i, j) ∈ mb then refreshRow iwFn cfg (pol i j) (ptrunc i j) e else e) ep
  if mb.any fun q => q.1 = i then setRetrace cfg.discountFactor ep1 else ep1

/-- The episode-structured view of the replay memory used to state the
whole-refresh laws: the stored episodes (each a run of experiences sharing
an episode id) and the running off-policy count. -/
structure EpisodeReplay where
  episodes : List (List Experience)
  offPolicyCount : ℕ
deriving DecidableEq

/-- Total number of off-policy rows over all episodes. -/
def offPolicyTotal (eps : List (List Experience)) : ℕ :=
  (eps.map offPolicyRows).sum

/-- Modelled from the spec: the whole-minibatch metadata refresh
`updateExperienceMetadata` (declared at agent.hpp lines 624-629; the body is
not in the excerpt), at episode granularity: each episode is refreshed via
`refreshEpisode`, and the off-policy count is adjusted by the net change in
off-policy rows (spec §4.4.5: the count is maintained incrementally). -/
def updateExperienceMetadata (iwFn : List ℚ → PolicyRecord → PolicyRecord → ℚ)
    (cfg : RefreshConfig) (pol ptrunc : ℕ → ℕ → PolicyRecord)
    (mb : List (ℕ × ℕ)) (rm : EpisodeReplay) : EpisodeReplay :=
  let eps := mapIdx0 (fun i ep => refreshEpisode iwFn cfg pol ptrunc mb i ep) rm.episodes
  { episodes := eps
    offPolicyCount := rm.offPolicyCount + offPolicyTotal eps - offPolicyTotal rm.episodes }

/-- On the idealized floats, a division is finite exactly when the divisor is
nonzero, and then the quotient is the exact rational one. -/
theorem floatDiv_eq_finite_iff (x y v : ℚ) :
    floatDiv x y = FVal.finite v ↔ y ≠ 0 ∧ v = x / y := by
  unfold floatDiv
  rcases eq_or_ne y 0 with h | h
  · subst h
    simp only [ne_eq, not_true_eq_false, if_false]
    split <;> [simp; split <;> simp]
  · simp [h, eq_comm]

/-- `getScaledReward` returns a value exactly when the idealized float
division returns that finite value. -/
theorem getScaledReward_eq_ok_iff (sigma : ℕ → ℚ) (e : ℕ) (r v : ℚ) :
    getScaledReward sigma e r = Except.ok v ↔
      floatDiv r (sigma e) = FVal.finite v := by
  unfold getScaledReward
  cases hd : floatDiv r (sigma e) <;> simp

/-- `getScaledReward` fails exactly when the idealized float division is
non-finite. -/
theorem getScaledReward_eq_error_iff (sigma : ℕ → ℚ) (e : ℕ) (r : ℚ) :
    getScaledReward sigma e r = Except.error KoraliError.numericFailure ↔
      (floatDiv r (sigma e)).isFinite = false := by
  unfold getScaledReward
  cases hd : floatDiv r (sigma e) <;> simp [FVal.isFinite]

/-- C1 counterexample: with the stored per-environment sigma equal to 0,
`getScaledReward` does not return the reward unchanged: the quotient
`1 / 0` is non-finite and the call fails with `NumericFailure` instead of
returning `1`. -/
theorem getScaledReward_zero_sigma_counterexample :
    getScaledReward (fun _ => 0) 0 1 ≠ Except.ok 1 := by
  intro h
  rw [getScaledReward_eq_ok_iff, floatDiv_eq_finite_iff] at h
  exact h.1 rfl

/-- C1 (amended): `getScaledReward` itself performs no zero-sigma
substitution — with a stored sigma of 0 it fails with `NumericFailure`
rather than returning the reward. The spec's rule "if `sigma = 0` use 1"
is applied where the sigma is computed: when the stored sigma table is
obtained from the raw sigmas through `rewardRescalingSigmaOf`, a raw sigma
of 0 is stored as 1 and `getScaledReward` then returns the reward
unchanged. -/
theorem getScaledReward_zero_raw_sigma_unscaled (rawSigma : ℕ → ℚ) (e : ℕ) (r : ℚ)
    (h : rawSigma e = 0) :
    getScaledReward (fun i => rewardRescalingSigmaOf (rawSigma i)) e r = Except.ok r := by
  simp only [getScaledReward, rewardRescalingSigmaOf, h, if_pos rfl, floatDiv]
  norm_num

/-- C1 witness: the amended theorem at raw sigma 0 and reward 5. -/
theorem getScaledReward_zero_raw_sigma_unscaled_witness :
    getScaledReward (fun i => rewardRescalingSigmaOf ((fun _ => (0 : ℚ)) i)) 0 5 =
      Except.ok 5 :=
  getScaledReward_zero_raw_sigma_unscaled (fun _ => 0) 0 5 rfl

/-- C2: if the scaled reward `reward / sigma[e]` is non-finite, the
computation fails fatally: `getScaledReward` yields the `NumericFailure`
error rather than returning a value. -/
theorem getScaledReward_nonfinite_fails (sigma : ℕ → ℚ) (e : ℕ) (r : ℚ)
    (h : (floatDiv r (sigma e)).isFinite = false) :
    getScaledReward sigma e r = Except.error KoraliError.numericFailure := by
  unfold getScaledReward
  cases hd : floatDiv r (sigma e) <;> simp_all [FVal.isFinite]

/-- C2 witness: sigma 0 and reward 1 produce a non-finite quotient and the
fatal `NumericFailure`. -/
theorem getScaledReward_nonfinite_fails_witness :
    (floatDiv 1 ((fun _ => (0 : ℚ)) 0)).isFinite = false ∧
      getScaledReward (fun _ => 0) 0 1 = Except.error KoraliError.numericFailure :=
  ⟨by decide, getScaledReward_nonfinite_fails (fun _ => 0) 0 1 (by decide)⟩

/-- C10: `getScaledReward` returns a value exactly when the quotient
`reward / sigma[e]` is finite, and the returned value is that quotient
(a finite rational, so no non-finite scaled reward is ever returned to the
caller); the error branch is taken exactly when the quotient is
non-finite. -/
theorem getScaledReward_characterization (sigma : ℕ → ℚ) (e : ℕ) (r v : ℚ) :
    (getScaledReward sigma e r = Except.ok v ↔ sigma e ≠ 0 ∧ v = r / sigma e) ∧
      (getScaledReward sigma e r = Except.error KoraliError.numericFailure ↔
        (floatDiv r (sigma e)).isFinite = false) :=
  ⟨(getScaledReward_eq_ok_iff sigma e r v).trans (floatDiv_eq_finite_iff r (sigma e) v),
   getScaledReward_eq_error_iff sigma e r⟩

/-- C3: for a REFER controller update with annealing rate `0 < A < 1`,
well-formed state (`beta` in `[0, 1]`, `cutoff >= 1`, learning rate at or
above its minimum `lrMin >= 0`): if the off-policy ratio exceeds the target
then cutoff and learning rate are multiplied by `1 - A` (subject to their
lower clamps) and beta becomes exactly `beta + (1 - beta) * A`; otherwise
cutoff and learning rate are divided by `1 - A` (the clamps are provably
inactive in this branch) and beta becomes exactly `beta - beta * A`. -/
theorem updateREFER_spec (A D lrMin r : ℚ) (s : ReferState)
    (hA0 : 0 < A) (hA1 : A < 1)
    (hb0 : 0 ≤ s.beta) (hb1 : s.beta ≤ 1)
    (hc : 1 ≤ s.cutoff) (hlrMin : 0 ≤ lrMin) (hlr : lrMin ≤ s.learningRate) :
    (r > D → updateREFER A D lrMin r s =
      { cutoff := max 1 (s.cutoff * (1 - A))
        learningRate := max lrMin (s.learningRate * (1 - A))
        beta := s.beta + (1 - s.beta) * A }) ∧
    (r ≤ D → updateREFER A D lrMin r s =
      { cutoff := s.cutoff / (1 - A)
        learningRate := s.learningRate / (1 - A)
        beta := s.beta - s.beta * A }) := by
  have h1A : (0 : ℚ) < 1 - A := by linarith
  constructor
  · intro hr
    have hbeta0 : 0 ≤ s.beta + (1 - s.beta) * A := by nlinarith
    have hbeta1 : s.beta + (1 - s.beta) * A ≤ 1 := by nlinarith
    simp [updateREFER, hr, max_eq_right hbeta0, min_eq_right hbeta1]
  · intro hr
    have hnr : ¬ r > D := not_lt.mpr hr
    have hcut : 1 ≤ s.cutoff / (1 - A) := by
      rw [le_div_iff₀ h1A]
      nlinarith
    have hlr2 : lrMin ≤ s.learningRate / (1 - A) := by
      rw [le_div_iff₀ h1A]
      nlinarith
    have hbeta0 : 0 ≤ s.beta - s.beta * A := by nlinarith
    have hbeta1 : s.beta - s.beta * A ≤ 1 := by nlinarith
    simp [updateREFER, hnr, max_eq_right hbeta0, min_eq_right hbeta1,
      max_eq_right hcut, max_eq_right hlr2]

/-- C3 witness: with `A = 1/2`, `D = 1/10`, `lrMin = 1/10`, off-policy ratio
`0 <= D`, and state `(cutoff, lr, beta) = (2, 1, 1/2)`, the update divides
cutoff and learning rate by `1 - A` and moves beta down by `beta * A`. -/
theorem updateREFER_spec_witness :
    updateREFER (1/2) (1/10) (1/10) 0 ⟨2, 1, 1/2⟩ =
      { cutoff := (2 : ℚ) / (1 - 1/2)
        learningRate := (1 : ℚ) / (1 - 1/2)
        beta := (1/2 : ℚ) - (1/2) * (1/2) } :=
  (updateREFER_spec (1/2) (1/10) (1/10) 0 ⟨2, 1, 1/2⟩ (by norm_num) (by norm_num)
    (by norm_num) (by norm_num) (by norm_num) (by norm_num) (by norm_num)).2
    (by norm_num)

/-- The retrace sweep assigns one value per experience. -/
theorem retraceValues_length (gamma : ℚ) (es : List Experience) :
    (retraceValues gamma es).length = es.length := by
  induction es with
  | nil => rfl
  | cons e rest ih =>
    cases rest with
    | nil => rfl
    | cons enext rest' => simp only [retraceValues, List.length_cons, ih]

/-- The default head of a rational list is its positional lookup at 0. -/
theorem headD_eq_getD_zero (l : List ℚ) : l.headD 0 = l.getD 0 0 := by
  cases l <;> rfl

/-- The last retrace value of an episode is computed from the episode's last
experience with both bootstrap slots filled by its terminal bootstrap
value. -/
theorem retraceValues_getLast (gamma : ℚ) (es : List Experience) (last : Experience)
    (h : es.getLast? = some last) :
    (retraceValues gamma es).getLast? =
      some (retraceStep gamma last (terminalBootstrap last) (terminalBootstrap last)) := by
  induction es with
  | nil => simp at h
  | cons e rest ih =>
    cases rest with
    | nil =>
      simp only [List.getLast?_singleton, Option.some.injEq] at h
      subst h
      rfl
    | cons enext rest' =>
      rw [List.getLast?_cons_cons] at h
      have htail := ih h
      have hne : retraceValues gamma (enext :: rest') ≠ [] := by
        intro hnil
        have := retraceValues_length gamma (enext :: rest')
        rw [hnil] at this
        simp at this
      obtain ⟨t, ts, hts⟩ := List.exists_cons_of_ne_nil hne
      simp only [retraceValues, hts, List.getLast?_cons_cons]
      rw [← hts, htail]

/-- Every non-last experience of an episode takes its `V_next` from the state
value of the next in-episode experience and its `V_ret_next` from that
experience's retrace value. -/
theorem retraceValues_getD (gamma : ℚ) (es : List Experience) (i : ℕ)
    (hi : i + 1 < es.length) :
    (retraceValues gamma es).getD i 0 =
      retraceStep gamma (es.getD i exp0) ((es.getD (i + 1) exp0).stateValue)
        ((retraceValues gamma es).getD (i + 1) 0) := by
  induction es generalizing i with
  | nil => simp at hi
  | cons e rest ih =>
    cases rest with
    | nil => simp at hi
    | cons enext rest' =>
      cases i with
      | zero =>
        simp only [retraceValues, List.getD_cons_zero, List.getD_cons_succ]
        rw [headD_eq_getD_zero]
      | succ n =>
        simp only [retraceValues, List.getD_cons_succ]
        exact ih n (by simpa using hi)

/-- C4: in the backward retrace recursion over an episode, the bootstrap
value used at the episode's last experience is 0 when its termination is
`Terminal` and the stored truncated state value when it is `Truncated`
(filling both the `V_next` and `V_ret_next` slots of the recursion), while
every non-terminal (non-last) experience uses the state value of the next
in-episode experience as `V_next` and that experience's retrace value as
`V_ret_next`. -/
theorem retraceValues_bootstrap_spec (gamma : ℚ) (es : List Experience)
    (last : Experience) (hlast : es.getLast? = some last) :
    (last.termination = Termination.terminal →
        (retraceValues gamma es).getLast? = some (retraceStep gamma last 0 0)) ∧
      (last.termination = Termination.truncated →
        (retraceValues gamma es).getLast? =
          some (retraceStep gamma last last.truncatedStateValue
            last.truncatedStateValue)) ∧
      (∀ i, i + 1 < es.length →
        (retraceValues gamma es).getD i 0 =
          retraceStep gamma (es.getD i exp0) ((es.getD (i + 1) exp0).stateValue)
            ((retraceValues gamma es).getD (i + 1) 0)) := by
  refine ⟨fun ht => ?_, fun ht => ?_, fun i hi => retraceValues_getD gamma es i hi⟩
  · have := retraceValues_getLast gamma es last hlast
    rwa [terminalBootstrap, ht] at this
  · have := retraceValues_getLast gamma es last hlast
    rwa [terminalBootstrap, ht] at this

/-- C4 witness: on the two-experience episode `[wExpA, wExpB]` whose last
experience is truncated, the last retrace value bootstraps from the stored
truncated state value and the first experience uses the state value and
retrace value of the second. -/
theorem retraceValues_bootstrap_spec_witness :
    (retraceValues 1 [wExpA, wExpB]).getLast? =
        some (retraceStep 1 wExpB wExpB.truncatedStateValue wExpB.truncatedStateValue) ∧
      (retraceValues 1 [wExpA, wExpB]).getD 0 0 =
        retraceStep 1 ([wExpA, wExpB].getD 0 exp0)
          (([wExpA, wExpB].getD 1 exp0).stateValue)
          ((retraceValues 1 [wExpA, wExpB]).getD 1 0) :=
  ⟨(retraceValues_bootstrap_spec 1 [wExpA, wExpB] wExpB rfl).2.1 rfl,
   (retraceValues_bootstrap_spec 1 [wExpA, wExpB] wExpB rfl).2.2 0 (by decide)⟩

/-- Setting one row changes `countP` by swapping the contribution of the old
row for that of the new one. -/
theorem countP_set_swap (p : Experience → Bool) (l : List Experience) (i : ℕ)
    (a : Experience) (h : i < l.length) :
    (l.set i a).countP p + (if p l[i] then 1 else 0) =
      l.countP p + (if p a then 1 else 0) := by
  induction l generalizing i with
  | nil => simp at h
  | cons x xs ih =>
    cases i with
    | zero =>
      simp only [List.set_cons_zero, List.countP_cons, List.getElem_cons_zero]
      omega
    | succ n =>
      have hn : n < xs.length := by simpa using h
      simp only [List.set_cons_succ, List.countP_cons, List.getElem_cons_succ]
      have := ih n hn
      omega

/-- Eviction preserves the counting invariant. -/
theorem countInvariant_evict (s : ReplayMemory) (h : countInvariant s) :
    countInvariant (evictOldest s) := by
  unfold countInvariant offPolicyRows at h ⊢
  cases hr : s.rows with
  | nil => simp [evictOldest, hr, hr ▸ h]
  | cons f rest =>
    rw [hr, List.countP_cons] at h
    simp only [evictOldest, hr]
    by_cases hf : f.isOnPolicy <;> simp [hf] at h ⊢ <;> omega

/-- Appending (with eviction on wrap) preserves the counting invariant. -/
theorem countInvariant_append (e : Experience) (s : ReplayMemory)
    (h : countInvariant s) : countInvariant (appendExperience e s) := by
  have h1 : countInvariant (if s.maxSize ≤ s.rows.length then evictOldest s else s) := by
    split
    · exact countInvariant_evict s h
    · exact h
  unfold countInvariant offPolicyRows at h1 ⊢
  simp only [appendExperience, List.countP_append]
  by_cases he : e.isOnPolicy <;> simp [he, List.countP_cons] <;> omega

/-- Refreshing a single row preserves the counting invariant. -/
theorem countInvariant_refreshAt (iwFn : List ℚ → PolicyRecord → PolicyRecord → ℚ)
    (cfg : RefreshConfig) (p ptrunc : PolicyRecord) (i : ℕ) (s : ReplayMemory)
    (h : countInvariant s) : countInvariant (refreshAt iwFn cfg p ptrunc i s) := by
  unfold countInvariant offPolicyRows at h ⊢
  cases hg : s.rows[i]? with
  | none => simpa [refreshAt, hg]
  | some e =>
    obtain ⟨hi, hei⟩ := List.getElem?_eq_some_iff.mp hg
    have key := countP_set_swap (fun ex => !ex.isOnPolicy) s.rows i
      (refreshRow iwFn cfg p ptrunc e) hi
    rw [hei] at key
    simp only [refreshAt, hg]
    cases ho : e.isOnPolicy <;>
      cases ho' : (refreshRow iwFn cfg p ptrunc e).isOnPolicy <;>
        simp [ho, ho'] at key ⊢ <;> omega

/-- The whole-minibatch refresh preserves the counting invariant. -/
theorem countInvariant_refreshMinibatch
    (iwFn : List ℚ → PolicyRecord → PolicyRecord → ℚ) (cfg : RefreshConfig)
    (pol ptrunc : ℕ → PolicyRecord) (mb : List ℕ) (s : ReplayMemory)
    (h : countInvariant s) :
    countInvariant (refreshMinibatch iwFn cfg pol ptrunc mb s) := by
  induction mb generalizing s with
  | nil => exact h
  | cons i rest ih =>
    exact ih _ (countInvariant_refreshAt iwFn cfg (pol i) (ptrunc i) i s h)

/-- C7: after every replay-memory operation — eviction of the oldest row,
append (with eviction on wrap), and whole-minibatch metadata refresh — the
off-policy count equals the number of stored experiences whose on-policy
flag is false; in particular, evicting an off-policy row decrements the
count by exactly one. -/
theorem offPolicyCount_invariant (iwFn : List ℚ → PolicyRecord → PolicyRecord → ℚ)
    (cfg : RefreshConfig) (pol ptrunc : ℕ → PolicyRecord) (mb : List ℕ)
    (e f : Experience) (rest : List Experience) (s : ReplayMemory)
    (h : countInvariant s) :
    countInvariant (evictOldest s) ∧
      countInvariant (appendExperience e s) ∧
      countInvariant (refreshMinibatch iwFn cfg pol ptrunc mb s) ∧
      (s.rows = f :: rest → f.isOnPolicy = false →
        (evictOldest s).offPolicyCount + 1 = s.offPolicyCount) := by
  refine ⟨countInvariant_evict s h, countInvariant_append e s h,
    countInvariant_refreshMinibatch iwFn cfg pol ptrunc mb s h, fun hr hf => ?_⟩
  unfold countInvariant offPolicyRows at h
  rw [hr, List.countP_cons] at h
  simp only [hf, Bool.not_false, if_pos] at h
  simp [evictOldest, hr, hf]
  omega

/-- C7 witness: on a one-row replay memory whose only row is off-policy,
eviction decrements the off-policy count by exactly one. -/
theorem offPolicyCount_invariant_witness :
    (evictOldest wRM).offPolicyCount + 1 = wRM.offPolicyCount :=
  (offPolicyCount_invariant wIw wCfg (fun _ => wPol) (fun _ => wPol) [] exp0 wOff []
    wRM (by rfl)).2.2.2 rfl rfl

/-- C5: refreshing the metadata of row `i` stores the truncated importance
weight `min(rho, C)` computed from the freshly evaluated importance weight
`rho` and the truncation level `C`; consequently, when every stored
experience already satisfies `0 <= trunc_importance_weight <= C`, the bound
keeps holding for every stored experience after the refresh (so it holds in
every generation). -/
theorem truncatedImportanceWeight_refresh
    (iwFn : List ℚ → PolicyRecord → PolicyRecord → ℚ) (cfg : RefreshConfig)
    (p ptrunc : PolicyRecord) (i : ℕ) (s : ReplayMemory)
    (hiw : ∀ a pc pe, 0 ≤ iwFn a pc pe) (hC : 0 ≤ cfg.truncationLevel)
    (hall : ∀ ex ∈ s.rows,
      0 ≤ ex.truncatedImportanceWeight ∧
        ex.truncatedImportanceWeight ≤ cfg.truncationLevel)
    (hi : i < s.rows.length) :
    ((refreshAt iwFn cfg p ptrunc i s).rows.getD i exp0).truncatedImportanceWeight =
        min (iwFn (s.rows.getD i exp0).action p (s.rows.getD i exp0).expPolicy)
          cfg.truncationLevel ∧
      ∀ ex ∈ (refreshAt iwFn cfg p ptrunc i s).rows,
        0 ≤ ex.truncatedImportanceWeight ∧
          ex.truncatedImportanceWeight ≤ cfg.truncationLevel := by
  have hg : s.rows[i]? = some s.rows[i] := List.getElem?_eq_getElem hi
  have hrows : (refreshAt iwFn cfg p ptrunc i s).rows =
      s.rows.set i (refreshRow iwFn cfg p ptrunc s.rows[i]) := by
    simp [refreshAt, hg]
  constructor
  · have hlen : i < (s.rows.set i (refreshRow iwFn cfg p ptrunc s.rows[i])).length := by
      simpa using hi
    rw [hrows, List.getD_eq_getElem _ _ hlen, List.getElem_set_self,
      List.getD_eq_getElem _ _ hi]
    simp [refreshRow]
  · intro ex hex
    rw [hrows] at hex
    rcases List.mem_or_eq_of_mem_set hex with hmem | heq
    · exact hall ex hmem
    · subst heq
      simp only [refreshRow]
      exact ⟨le_min (hiw _ _ _) hC, min_le_right _ _⟩

/-- C5 witness: refreshing the single row of a one-row replay memory with a
constant importance weight of 2 and truncation level 4 stores
`min(2, 4)`. -/
theorem truncatedImportanceWeight_refresh_witness :
    ((refreshAt wIw wCfg wPol wPol 0 wRM1).rows.getD 0 exp0).truncatedImportanceWeight =
      min (wIw (wRM1.rows.getD 0 exp0).action wPol (wRM1.rows.getD 0 exp0).expPolicy)
        wCfg.truncationLevel :=
  (truncatedImportanceWeight_refresh wIw wCfg wPol wPol 0 wRM1
    (fun _ _ _ => by norm_num [wIw]) (by norm_num [wCfg])
    (by intro ex hex; simp [wRM1] at hex; subst hex; simp [exp0, wCfg])
    (by simp [wRM1])).1

/-- C6: after refreshing row `i`, its on-policy flag is set exactly when its
(freshly stored) importance weight lies in the band
`[1/cutoff, cutoff]` of the current off-policy cutoff. -/
theorem isOnPolicy_refresh (iwFn : List ℚ → PolicyRecord → PolicyRecord → ℚ)
    (cfg : RefreshConfig) (p ptrunc : PolicyRecord) (i : ℕ) (s : ReplayMemory)
    (hi : i < s.rows.length) :
    (((refreshAt iwFn cfg p ptrunc i s).rows.getD i exp0).isOnPolicy = true ↔
      1 / cfg.cutoff ≤
          ((refreshAt iwFn cfg p ptrunc i s).rows.getD i exp0).importanceWeight ∧
        ((refreshAt iwFn cfg p ptrunc i s).rows.getD i exp0).importanceWeight ≤
          cfg.cutoff) := by
  have hg : s.rows[i]? = some s.rows[i] := List.getElem?_eq_getElem hi
  have hrows : (refreshAt iwFn cfg p ptrunc i s).rows =
      s.rows.set i (refreshRow iwFn cfg p ptrunc s.rows[i]) := by
    simp [refreshAt, hg]
  have hlen : i < (s.rows.set i (refreshRow iwFn cfg p ptrunc s.rows[i])).length := by
    simpa using hi
  rw [hrows, List.getD_eq_getElem _ _ hlen, List.getElem_set_self]
  simp [refreshRow, computeIsOnPolicy]

/-- C8: a generation whose post-ingestion replay size is below
`ExperienceReplayStartSize` performs no policy update, and — provided each
training generation performs at least one update — a generation increases
the policy-update count exactly when its post-ingestion size has reached
the start size; hence the first policy update occurs in the first
generation in which `size >= StartSize` holds. -/
theorem trainingGeneration_start_gate (startSize maxSize newExperiences updates : ℕ)
    (s : LearnerState) (hu : 0 < updates) :
    ((runTrainingGeneration startSize maxSize newExperiences updates s).replaySize <
        startSize →
      (runTrainingGeneration startSize maxSize newExperiences updates s).policyUpdateCount =
        s.policyUpdateCount) ∧
      (s.policyUpdateCount <
          (runTrainingGeneration startSize maxSize newExperiences updates s).policyUpdateCount ↔
        startSize ≤ min (s.replaySize + newExperiences) maxSize) := by
  unfold runTrainingGeneration
  by_cases h : min (s.replaySize + newExperiences) maxSize < startSize <;>
    simp [h] <;> omega

/-- C8 witness: from an empty replay with start size 2, a generation that
ingests one experience performs no update, and the per-generation gate is
the reached threshold. -/
theorem trainingGeneration_start_gate_witness :
    ((runTrainingGeneration 2 4 1 1 ⟨0, 0⟩).replaySize < 2 →
      (runTrainingGeneration 2 4 1 1 ⟨0, 0⟩).policyUpdateCount = (0 : ℕ)) ∧
      ((0 : ℕ) < (runTrainingGeneration 2 4 1 1 ⟨0, 0⟩).policyUpdateCount ↔
        2 ≤ min (0 + 1) 4) :=
  trainingGeneration_start_gate 2 4 1 1 ⟨0, 0⟩ (by decide)

/-- Refreshing a row twice with the same policy records gives the same row as
refreshing it once: all refreshed fields are recomputed from fields the
refresh does not change. -/
theorem refreshRow_idem (iwFn : List ℚ → PolicyRecord → PolicyRecord → ℚ)
    (cfg : RefreshConfig) (p ptrunc : PolicyRecord) (e : Experience) :
    refreshRow iwFn cfg p ptrunc (refreshRow iwFn cfg p ptrunc e) =
      refreshRow iwFn cfg p ptrunc e := by
  by_cases h : e.termination = Termination.truncated <;> simp [refreshRow, h]

/-- Refreshing a row commutes with overwriting its retrace value: the refresh
neither reads nor writes the retrace column. -/
theorem refreshRow_retrace_comm (iwFn : List ℚ → PolicyRecord → PolicyRecord → ℚ)
    (cfg : RefreshConfig) (p ptrunc : PolicyRecord) (e : Experience) (v : ℚ) :
    refreshRow iwFn cfg p ptrunc { e with retraceValue := v } =
      { refreshRow iwFn cfg p ptrunc e with retraceValue := v } := by
  by_cases h : e.termination = Termination.truncated <;> simp [refreshRow, h]

/-- Composing two index-aware maps composes them pointwise. -/
theorem mapIdxFrom_comp {α : Type} (f g : ℕ → α → α) (n : ℕ) (l : List α) :
    mapIdxFrom f n (mapIdxFrom g n l) = mapIdxFrom (fun j a => f j (g j a)) n l := by
  induction l generalizing n with
  | nil => rfl
  | cons a as ih => simp only [mapIdxFrom, ih]

/-- Index-aware maps of pointwise-equal functions agree. -/
theorem mapIdxFrom_congr {α : Type} (f g : ℕ → α → α) (n : ℕ) (l : List α)
    (h : ∀ j a, f j a = g j a) : mapIdxFrom f n l = mapIdxFrom g n l := by
  induction l generalizing n with
  | nil => rfl
  | cons a as ih => simp only [mapIdxFrom, h, ih]

/-- An index-aware map of a pointwise identity is the identity. -/
theorem mapIdxFrom_id {α : Type} (f : ℕ → α → α) (n : ℕ) (l : List α)
    (h : ∀ j a, f j a = a) : mapIdxFrom f n l = l := by
  induction l generalizing n with
  | nil => rfl
  | cons a as ih => simp only [mapIdxFrom, h, ih]

/-- A positional write that preserves the retrace-relevant fields preserves
the retrace data of the whole column. -/
theorem retraceData_mapIdxFrom (f : ℕ → Experience → Experience) (n : ℕ)
    (l : List Experience) (h : ∀ j e, retraceData (f j e) = retraceData e) :
    (mapIdxFrom f n l).map retraceData = l.map retraceData := by
  induction l generalizing n with
  | nil => rfl
  | cons a as ih => simp only [mapIdxFrom, List.map_cons, h, ih]

/-- The retrace sweep depends only on the retrace-relevant fields of the
episode. -/
theorem retraceValues_congr (gamma : ℚ) :
    ∀ (l₁ l₂ : List Experience), l₁.map retraceData = l₂.map retraceData →
      retraceValues gamma l₁ = retraceValues gamma l₂ := by
  intro l₁
  induction l₁ with
  | nil =>
    intro l₂ h
    cases l₂ with
    | nil => rfl
    | cons f rest₂ => simp at h
  | cons e rest ih =>
    intro l₂ h
    cases l₂ with
    | nil => simp at h
    | cons f rest₂ =>
      simp only [List.map_cons, List.cons.injEq] at h
      obtain ⟨hef, hrest⟩ := h
      have hef' : e.reward = f.reward ∧ e.stateValue = f.stateValue ∧
          e.truncatedImportanceWeight = f.truncatedImportanceWeight ∧
          e.termination = f.termination ∧
          e.truncatedStateValue = f.truncatedStateValue := by
        simpa [retraceData, Prod.ext_iff] using hef
      obtain ⟨h1, h2, h3, h4, h5⟩ := hef'
      cases rest with
      | nil =>
        cases rest₂ with
        | nil =>
          simp only [retraceValues, retraceStep, terminalBootstrap, h1, h2, h3, h4, h5]
        | cons _ _ => simp at hrest
      | cons e2 rest' =>
        cases rest₂ with
        | nil => simp at hrest
        | cons f2 rest₂' =>
          have htail := ih (f2 :: rest₂') hrest
          have h2sv : e2.stateValue = f2.stateValue := by
            simp only [List.map_cons, List.cons.injEq] at hrest
            exact congrArg (fun t => t.2.1) hrest.1
          simp only [retraceValues, htail, retraceStep, h1, h2, h3, h2sv]

/-- Writing back retrace values does not change the retrace data of the
episode. -/
theorem retraceData_setRetrace (gamma : ℚ) (l : List Experience) :
    (setRetrace gamma l).map retraceData = l.map retraceData :=
  retraceData_mapIdxFrom _ 0 l (fun _ _ => rfl)

/-- Writing back the recomputed retrace values twice equals writing them
once. -/
theorem setRetrace_idem (gamma : ℚ) (l : List Experience) :
    setRetrace gamma (setRetrace gamma l) = setRetrace gamma l := by
  have hRV : retraceValues gamma
      (mapIdxFrom
        (fun j e => { e with retraceValue := (retraceValues gamma l).getD j 0 }) 0 l) =
      retraceValues gamma l :=
    retraceValues_congr gamma _ _ (retraceData_setRetrace gamma l)
  unfold setRetrace mapIdx0
  rw [hRV, mapIdxFrom_comp]

/-- A pointwise-idempotent positional write that commutes with retrace
overwrites leaves an already-written-back column fixed. -/
theorem mapIdx0_setRetrace_stable (gamma : ℚ) (f : ℕ → Experience → Experience)
    (hidem : ∀ j e, f j (f j e) = f j e)
    (hcomm : ∀ j e v, f j { e with retraceValue := v } =
      { f j e with retraceValue := v })
    (ep : List Experience) :
    mapIdx0 f (setRetrace gamma (mapIdx0 f ep)) = setRetrace gamma (mapIdx0 f ep) := by
  unfold setRetrace mapIdx0
  simp only [mapIdxFrom_comp]
  refine mapIdxFrom_congr _ _ 0 ep (fun j e => ?_)
  exact (hcomm j (f j e) ((retraceValues gamma (mapIdxFrom f 0 ep)).getD j 0)).trans
    (congrArg
      (fun x => { x with retraceValue := (retraceValues gamma (mapIdxFrom f 0 ep)).getD j 0 })
      (hidem j e))

/-- Refreshing an episode twice for the same minibatch and the same policy
records gives the same episode as refreshing it once. -/
theorem refreshEpisode_idem (iwFn : List ℚ → PolicyRecord → PolicyRecord → ℚ)
    (cfg : RefreshConfig) (pol ptrunc : ℕ → ℕ → PolicyRecord)
    (mb : List (ℕ × ℕ)) (i : ℕ) (ep : List Experience) :
    refreshEpisode iwFn cfg pol ptrunc mb i (refreshEpisode iwFn cfg pol ptrunc mb i ep) =
      refreshEpisode iwFn cfg pol ptrunc mb i ep := by
  have hid : ∀ (j : ℕ) (e : Experience),
      (fun j e => if (i, j) ∈ mb then refreshRow iwFn cfg (pol i j) (ptrunc i j) e else e) j
        ((fun j e => if (i, j) ∈ mb then refreshRow iwFn cfg (pol i j) (ptrunc i j) e else e) j e) =
      (fun j e => if (i, j) ∈ mb then refreshRow iwFn cfg (pol i j) (ptrunc i j) e else e) j e := by
    intro j e
    by_cases hmem : (i, j) ∈ mb <;> simp [hmem, refreshRow_idem]
  have hcm : ∀ (j : ℕ) (e : Experience) (v : ℚ),
      (fun j e => if (i, j) ∈ mb then refreshRow iwFn cfg (pol i j) (ptrunc i j) e else e) j
        { e with retraceValue := v } =
      { (fun j e => if (i, j) ∈ mb then refreshRow iwFn cfg (pol i j) (ptrunc i j) e else e) j e
          with retraceValue := v } := by
    intro j e v
    by_cases hmem : (i, j) ∈ mb <;> simp [hmem, refreshRow_retrace_comm]
  by_cases ht : (mb.any fun q => q.1 = i) = true
  · simp only [refreshEpisode, ht, if_true]
    rw [mapIdx0_setRetrace_stable cfg.discountFactor _ hid hcm ep,
      setRetrace_idem]
  · have hnot : ∀ j : ℕ, (i, j) ∉ mb := by
      intro j hj
      exact ht (List.any_eq_true.mpr ⟨(i, j), hj, by simp⟩)
    have hg : ∀ l : List Experience,
        mapIdx0 (fun j e =>
          if (i, j) ∈ mb then refreshRow iwFn cfg (pol i j) (ptrunc i j) e else e) l = l :=
      fun l => mapIdxFrom_id _ 0 l (fun j a => by simp [hnot j])
    simp only [refreshEpisode, ht, hg]
    simp

/-- C9: refreshing the metadata of the same minibatch twice in a row with
the same policy (two applications of `updateExperienceMetadata` with no
policy update in between) leaves the whole replay state — every refreshed
column including the retrace values, and the off-policy count — identical
to the result of a single refresh. -/
theorem updateExperienceMetadata_idem (iwFn : List ℚ → PolicyRecord → PolicyRecord → ℚ)
    (cfg : RefreshConfig) (pol ptrunc : ℕ → ℕ → PolicyRecord)
    (mb : List (ℕ × ℕ)) (rm : EpisodeReplay) :
    updateExperienceMetadata iwFn cfg pol ptrunc mb
        (updateExperienceMetadata iwFn cfg pol ptrunc mb rm) =
      updateExperienceMetadata iwFn cfg pol ptrunc mb rm := by
  have heps : ∀ eps : List (List Experience),
      mapIdx0 (fun i ep => refreshEpisode iwFn cfg pol ptrunc mb i ep)
          (mapIdx0 (fun i ep => refreshEpisode iwFn cfg pol ptrunc mb i ep) eps) =
        mapIdx0 (fun i ep => refreshEpisode iwFn cfg pol ptrunc mb i ep) eps := by
    intro eps
    unfold mapIdx0
    rw [mapIdxFrom_comp]
    exact mapIdxFrom_congr _ _ 0 eps
      (fun j a => refreshEpisode_idem iwFn cfg pol ptrunc mb j a)
  simp only [updateExperienceMetadata, heps]
  congr 1
  omega

/-- C6 witness: in the refreshed one-row memory with cutoff 4, the stored
importance weight 2 lies inside `[1/4, 4]` and the row is flagged
on-policy. -/
theorem isOnPolicy_refresh_witness :
    (((refreshAt wIw wCfg wPol wPol 0 wRM1).rows.getD 0 exp0).isOnPolicy = true ↔
      1 / wCfg.cutoff ≤
          ((refreshAt wIw wCfg wPol wPol 0 wRM1).rows.getD 0 exp0).importanceWeight ∧
        ((refreshAt wIw wCfg wPol wPol 0 wRM1).rows.getD 0 exp0).importanceWeight ≤
          wCfg.cutoff) :=
  isOnPolicy_refresh wIw wCfg wPol wPol 0 wRM1 (by simp [wRM1])

end Korali
